import Mathlib

/-!
Verification of the msword repository (msword/base.py): a shallow embedding of
its key-filtering and value-decoding mapping wrappers, with theorems settling
the specification's claims about them.

Identifiers (file keys) are Lean `String`s; raw file content is a list of byte
values; the external python-docx document object is modelled by the only part
of its surface the source uses (an ordered list of paragraphs, each carrying a
`text` attribute).  The external `dol` mapping-wrapper library (`Files`,
`filt_iter`, `wrap_kvs`, `Pipe`) is not part of this repository's sources, so
its operations are modelled from the specification's contracts and marked as
such in their doc comments.
-/

/-- Python's `str.split('.')` over the character list of a string:
`"".split('.') == ['']`, a dot-free string yields the singleton of itself,
and each dot starts a new (possibly empty) component. -/
def splitDot : List Char → List (List Char)
  | [] => [[]]
  | c :: cs =>
    if c = '.' then [] :: splitDot cs
    else
      match splitDot cs with
      | [] => [[c]]
      | h :: t => (c :: h) :: t

theorem splitDot_ne_nil (l : List Char) : splitDot l ≠ [] := by
  cases l with
  | nil => simp [splitDot]
  | cons c cs =>
    by_cases hc : c = '.'
    · simp [splitDot, hc]
    · simp only [splitDot, if_neg hc]
      cases splitDot cs <;> simp

theorem splitDot_no_dot (l : List Char) (h : '.' ∉ l) : splitDot l = [l] := by
  induction l with
  | nil => rfl
  | cons c cs ih =>
    have hc : c ≠ '.' := fun hh => h (hh ▸ List.mem_cons_self c cs)
    have hcs : '.' ∉ cs := fun hh => h (List.mem_cons_of_mem c hh)
    simp only [splitDot, if_neg hc, ih hcs]

theorem splitDot_two_le_length (l : List Char) (h : '.' ∈ l) :
    2 ≤ (splitDot l).length := by
  induction l with
  | nil => cases h
  | cons c cs ih =>
    by_cases hc : c = '.'
    · have h1 : 1 ≤ (splitDot cs).length := by
        have := splitDot_ne_nil cs
        cases hcs : splitDot cs with
        | nil => exact absurd hcs this
        | cons x xs => simp
      simp only [splitDot, if_pos hc, List.length_cons]
      omega
    · have hmem : '.' ∈ cs := by
        rcases List.mem_cons.mp h with h' | h'
        · exact absurd h'.symm hc
        · exact h'
      have h2 := ih hmem
      simp only [splitDot, if_neg hc]
      cases hcs : splitDot cs with
      | nil => exact absurd hcs (splitDot_ne_nil cs)
      | cons x xs =>
        rw [hcs] at h2
        simpa using h2

theorem takeWhile_append_of_neg {p : Char → Bool} {l₁ l₂ : List Char}
    (h : ∃ a ∈ l₁, p a = false) :
    (l₁ ++ l₂).takeWhile p = l₁.takeWhile p := by
  induction l₁ with
  | nil => obtain ⟨a, ha, _⟩ := h; cases ha
  | cons x xs ih =>
    by_cases hx : p x = true
    · simp only [List.cons_append, List.takeWhile_cons, hx, if_true]
      have h' : ∃ a ∈ xs, p a = false := by
        obtain ⟨a, ha, hpa⟩ := h
        rcases List.mem_cons.mp ha with rfl | ha'
        · rw [hx] at hpa; cases hpa
        · exact ⟨a, ha', hpa⟩
      rw [ih h']
    · have hx' : p x = false := by
        cases hpx : p x
        · rfl
        · exact absurd hpx hx
      simp [List.takeWhile_cons, hx']

/-- The last component of a Python dot-split equals the maximal dot-free
suffix of the string (read off via reverse-takeWhile-reverse). -/
theorem splitDot_getLastD (l : List Char) :
    (splitDot l).getLastD [] = (l.reverse.takeWhile (fun c => c != '.')).reverse := by
  induction l with
  | nil => rfl
  | cons c cs ih =>
    have hrev : (c :: cs).reverse = cs.reverse ++ [c] := by simp
    by_cases hdot : '.' ∈ cs
    · have hneg : ∃ a ∈ cs.reverse, (a != '.') = false := by
        refine ⟨'.', List.mem_reverse.mpr hdot, ?_⟩
        simp
      have htw : ((c :: cs).reverse.takeWhile (fun c => c != '.'))
          = cs.reverse.takeWhile (fun c => c != '.') := by
        rw [hrev]; exact takeWhile_append_of_neg hneg
      rw [htw, ← ih]
      by_cases hc : c = '.'
      · simp only [splitDot, if_pos hc, List.getLastD_cons]
      · have h2 := splitDot_two_le_length cs hdot
        cases hcs : splitDot cs with
        | nil => exact absurd hcs (splitDot_ne_nil cs)
        | cons h0 t =>
          cases t with
          | nil => rw [hcs] at h2; simp at h2
          | cons x t' =>
            simp only [splitDot, if_neg hc, hcs, List.getLastD_cons]
    · have hall : ∀ a ∈ cs.reverse, (a != '.') = true := by
        intro a ha
        have : a ∈ cs := List.mem_reverse.mp ha
        have : a ≠ '.' := fun hh => hdot (hh ▸ this)
        simpa using this
      have hsplit : splitDot cs = [cs] := splitDot_no_dot cs hdot
      by_cases hc : c = '.'
      · have htw : ((c :: cs).reverse.takeWhile (fun c => c != '.')) = cs.reverse := by
          rw [hrev, List.takeWhile_append_of_pos hall]
          have : (c != '.') = false := by simp [hc]
          simp [List.takeWhile_cons, this]
        rw [htw]
        simp only [splitDot, if_pos hc, hsplit, List.getLastD_cons, List.reverse_reverse]
        rfl
      · have htw : ((c :: cs).reverse.takeWhile (fun c => c != '.')) = cs.reverse ++ [c] := by
          rw [hrev, List.takeWhile_append_of_pos hall]
          have : (c != '.') = true := by simpa using hc
          simp [List.takeWhile_cons, this]
        rw [htw]
        simp only [splitDot, if_neg hc, hsplit]
        simp

/-- msword.base._extension: `parts = k.split('.'); if parts: return parts[-1]`
(Python returns None when the split is empty, which never happens). -/
def _extension (k : String) : Option String :=
  let parts := (splitDot k.data).map (fun cs => String.mk cs)
  if parts.isEmpty then none else parts.getLast?

/-- msword.base._msword_extensions = {'doc', 'docx'}. -/
def _msword_extensions : List String := ["doc", "docx"]

/-- msword.base.has_msword_extension: `_extension(k) in _msword_extensions`. -/
def has_msword_extension (k : String) : Bool :=
  match _extension k with
  | some e => _msword_extensions.contains e
  | none => false

/-- msword.base._dflt_extension = '.docx'. -/
def _dflt_extension : String := ".docx"

/-- msword.base._dflt_extension_len = len(_dflt_extension) = 5. -/
def _dflt_extension_len : Nat := _dflt_extension.length

/-- msword.base._remove_docx_extension: returns `k[:_dflt_extension_len]`,
i.e. the FIRST five characters of k, exactly as written in the source. -/
def _remove_docx_extension (k : String) : String :=
  String.mk (k.data.take _dflt_extension_len)

/-- msword.base._add_docx_extension: `k + _dflt_extension`. -/
def _add_docx_extension (k : String) : String :=
  k ++ _dflt_extension

/-- A paragraph of a decoded document: the only attribute of the external
python-docx paragraph object that the source reads is `.text`. -/
structure Paragraph where
  text : String
deriving DecidableEq

/-- A decoded document: the only attribute of the external python-docx
`docx.document.Document` object that the source reads is `.paragraphs`,
an ordered list of paragraphs. -/
structure Document where
  paragraphs : List Paragraph
deriving DecidableEq

/-- Raw file content: a sequence of byte values. -/
abbrev Bytes := List Nat

/-- The error conditions of the spec's error taxonomy: `KeyNotFound` from the
base mapping, `DecodeError` propagated from the external parsing library. -/
inductive StoreErr where
  | keyNotFound (k : String)
  | decodeError (msg : String)
deriving DecidableEq

/-- msword.base.paragraphs_text: generator yielding `para.text` for each
paragraph of the document, in document order. -/
def paragraphs_text (doc : Document) : List String :=
  doc.paragraphs.map Paragraph.text

/-- Python's `sep.join(parts)` semantics: empty for the empty list, the single
element for a singleton, and the separator interleaved between elements. -/
def str_join (sep : String) : List String → String
  | [] => ""
  | [s] => s
  | s :: rest => s ++ sep ++ str_join sep rest

/-- msword.base.DFLT_PARAGRAPH_SEP = '\n'. -/
def DFLT_PARAGRAPH_SEP : String := "\n"

/-- msword.base.get_text_from_docx: `paragraph_sep.join(paragraphs_text(doc))`.
The Python default for `paragraph_sep` is `DFLT_PARAGRAPH_SEP`; the embedding
passes the separator explicitly. -/
def get_text_from_docx (doc : Document) (paragraph_sep : String) : String :=
  str_join paragraph_sep (paragraphs_text doc)

/-- A key-value store view, the spec's external mapping surface: iteration
(`keys`), membership test (`contains`), and keyed lookup (`get`), where lookup
either returns a value or fails with a `StoreErr`. -/
structure KVStore (α : Type) where
  keys : List String
  contains : String → Bool
  get : String → Except StoreErr α

/-- A base mapping built from an association list of entries, as the spec's
Document Source contract prescribes: `keys()` iterates the identifiers,
`contains` tests membership, and `get` returns the stored value or fails with
`KeyNotFound` for an absent identifier. -/
def baseStore {α : Type} (entries : List (String × α)) : KVStore α :=
  { keys := entries.map Prod.fst
    contains := fun k => (entries.map Prod.fst).contains k
    get := fun k =>
      match entries.find? (fun e => e.fst = k) with
      | some e => Except.ok e.snd
      | none => Except.error (StoreErr.keyNotFound k) }

/-- Modelled from the spec: `dol.filt_iter(store, filt)` (the dol library is an
external collaborator, not part of this repository's sources).  Keys failing
the filter are "excluded from iteration and from membership tests", while
"filtering only affects enumeration and containment, not direct keyed lookup":
`get` is passed through unchanged.  A non-boolean Python `filt` result is used
in boolean context, so callers passing one are modelled by its truthiness. -/
def filt_iter {α : Type} (store : KVStore α) (filt : String → Bool) : KVStore α :=
  { keys := store.keys.filter filt
    contains := fun k => store.contains k && filt k
    get := store.get }

/-- Modelled from the spec: `dol.wrap_kvs(value_decoder=dec)` (external dol
library) "returns a new mapping with the same identifier space where
lookup-by-key applies the decoder to the result of the base lookup"; the older
dol keyword `obj_of_data` used at AllLocalFilesDocxTextStore names the same
value-decoder mechanism.  Decoders may fail, so they land in `Except`, and a
base-lookup failure propagates before the decoder runs. -/
def wrap_kvs {α β : Type} (dec : α → Except StoreErr β) (store : KVStore α) :
    KVStore β :=
  { keys := store.keys
    contains := store.contains
    get := fun k => (store.get k).bind dec }

/-- Modelled from the spec: `dol.Pipe(f, g)` (external dol library) composing
the fallible bytes-to-document stage with a total second stage; "any failure
in 4.2 propagates unchanged; no additional failure modes introduced". -/
def Pipe {α β γ : Type} (f : α → Except StoreErr β) (g : β → γ) :
    α → Except StoreErr γ :=
  fun a => (f a).map g

/-- msword.base.only_files_with_msword_extension:
`filt_iter(store, filt=has_msword_extension)`. -/
def only_files_with_msword_extension {α : Type} (store : KVStore α) : KVStore α :=
  filt_iter store has_msword_extension

/-- msword.base.extension_less_keys:
`filt_iter(store, filt=_remove_docx_extension)`.  The source passes the string
result of `_remove_docx_extension` where a predicate is expected, so the
installed filter is the Python truthiness (non-emptiness) of that string. -/
def extension_less_keys {α : Type} (store : KVStore α) : KVStore α :=
  filt_iter store (fun k => !(_remove_docx_extension k).isEmpty)

/-- msword.base.with_bytes_to_doc_decoding = wrap_kvs(value_decoder=bytes_to_doc).
The external `docx.Document(BytesIO(b))` parser is a parameter `parse`. -/
def with_bytes_to_doc_decoding (parse : Bytes → Except StoreErr Document)
    (store : KVStore Bytes) : KVStore Document :=
  wrap_kvs parse store

/-- msword.base.with_doc_to_text_decoding = wrap_kvs(value_decoder=get_text_from_docx)
(a total decoder, lifted into Except). -/
def with_doc_to_text_decoding (store : KVStore Document) : KVStore String :=
  wrap_kvs (fun d => Except.ok (get_text_from_docx d DFLT_PARAGRAPH_SEP)) store

/-- msword.base.with_bytes_to_text_decoding =
wrap_kvs(value_decoder=Pipe(bytes_to_doc, get_text_from_docx)). -/
def with_bytes_to_text_decoding (parse : Bytes → Except StoreErr Document)
    (store : KVStore Bytes) : KVStore String :=
  wrap_kvs (Pipe parse (fun d => get_text_from_docx d DFLT_PARAGRAPH_SEP)) store

/-- Modelled from the spec: `dol.Files(root)` (external dol library), the
Document Source over a root location, modelled by the association list of
(relative path, raw bytes) entries the root holds. -/
def Files (root : List (String × Bytes)) : KVStore Bytes :=
  baseStore root

/-- msword.base.AllLocalFilesDocxStore = with_bytes_to_doc_decoding(Files). -/
def AllLocalFilesDocxStore (parse : Bytes → Except StoreErr Document)
    (root : List (String × Bytes)) : KVStore Document :=
  with_bytes_to_doc_decoding parse (Files root)

/-- msword.base.AllLocalFilesDocxTextStore =
wrap_kvs(obj_of_data=get_text_from_docx)(AllLocalFilesDocxStore). -/
def AllLocalFilesDocxTextStore (parse : Bytes → Except StoreErr Document)
    (root : List (String × Bytes)) : KVStore String :=
  with_doc_to_text_decoding (AllLocalFilesDocxStore parse root)

/-- msword.base.LocalDocxStore =
only_files_with_msword_extension(AllLocalFilesDocxStore). -/
def LocalDocxStore (parse : Bytes → Except StoreErr Document)
    (root : List (String × Bytes)) : KVStore Document :=
  only_files_with_msword_extension (AllLocalFilesDocxStore parse root)

/-- msword.base.LocalDocxTextStore =
only_files_with_msword_extension(AllLocalFilesDocxTextStore). -/
def LocalDocxTextStore (parse : Bytes → Except StoreErr Document)
    (root : List (String × Bytes)) : KVStore String :=
  only_files_with_msword_extension (AllLocalFilesDocxTextStore parse root)

theorem getLastD_default_irrel {α : Type} (l : List α) (hl : l ≠ []) (a b : α) :
    l.getLastD a = l.getLastD b := by
  cases l with
  | nil => exact absurd rfl hl
  | cons x xs => simp only [List.getLastD_cons]

theorem getLast?_eq_getLastD {α : Type} :
    ∀ (l : List α) (d : α), l ≠ [] → l.getLast? = some (l.getLastD d) := by
  intro l
  induction l with
  | nil => intro d h; exact absurd rfl h
  | cons x xs ih =>
    intro d _
    cases xs with
    | nil => simp [List.getLastD_cons]
    | cons y ys =>
      rw [List.getLast?_cons_cons, ih d (by simp)]
      simp only [List.getLastD_cons]

theorem getLastD_map {α β : Type} (f : α → β) :
    ∀ (l : List α) (d : α), (l.map f).getLastD (f d) = f (l.getLastD d) := by
  intro l
  induction l with
  | nil => intro d; rfl
  | cons x xs ih =>
    intro d
    rw [List.map_cons, List.getLastD_cons, List.getLastD_cons, ih x]

/-- The source's `_extension` always returns a value: the last component of
the dot-split of the key. -/
theorem _extension_eq (k : String) :
    _extension k = some (String.mk ((splitDot k.data).getLastD [])) := by
  unfold _extension
  have hne : splitDot k.data ≠ [] := splitDot_ne_nil k.data
  have hmapne : (splitDot k.data).map (fun cs => String.mk cs) ≠ [] := by
    intro h
    exact hne (List.map_eq_nil_iff.mp h)
  have hisEmpty : ((splitDot k.data).map (fun cs => String.mk cs)).isEmpty = false := by
    cases hm : (splitDot k.data).map (fun cs => String.mk cs) with
    | nil => exact absurd hm hmapne
    | cons a as => rfl
  simp only [hisEmpty, Bool.false_eq_true, if_false]
  rw [getLast?_eq_getLastD _ (String.mk []) hmapne]
  rw [getLastD_map (fun cs => String.mk cs) (splitDot k.data) []]

theorem takeWhile_of_all {p : Char → Bool} :
    ∀ l : List Char, (∀ a ∈ l, p a = true) → l.takeWhile p = l := by
  intro l
  induction l with
  | nil => intro _; rfl
  | cons x xs ih =>
    intro h
    rw [List.takeWhile_cons, if_pos (h x (List.mem_cons_self x xs)),
      ih (fun a ha => h a (List.mem_cons_of_mem x ha))]

/-- The substring of `k` strictly after the final `'.'`, stated from the
spec's words independently of the source's splitting: `none` when `k` has no
dot, otherwise the maximal dot-free suffix. -/
def suffixAfterLastDot (k : String) : Option String :=
  if '.' ∈ k.data then
    some (String.mk ((k.data.reverse.takeWhile (fun c => c != '.')).reverse))
  else none

/-- The visibility condition that actually governs the source's extension
filter, stated in the spec's vocabulary: when `k` contains a dot, the
substring after the final dot is `doc` or `docx`; when `k` has no dot, the
whole key is `doc` or `docx`. -/
def msword_ext_spec (k : String) : Prop :=
  if '.' ∈ k.data then
    suffixAfterLastDot k = some "doc" ∨ suffixAfterLastDot k = some "docx"
  else k = "doc" ∨ k = "docx"

instance (k : String) : Decidable (msword_ext_spec k) := by
  unfold msword_ext_spec
  infer_instance

theorem string_mk_data (k : String) : String.mk k.data = k :=
  String.ext rfl

theorem contains_msword_iff (s : String) :
    _msword_extensions.contains s = true ↔ s = "doc" ∨ s = "docx" := by
  simp [_msword_extensions]

/-- Central characterization: the source's extension test agrees with the
spec-side visibility condition. -/
theorem has_msword_extension_iff_spec (k : String) :
    has_msword_extension k = true ↔ msword_ext_spec k := by
  have hunfold : has_msword_extension k
      = _msword_extensions.contains (String.mk ((splitDot k.data).getLastD [])) := by
    unfold has_msword_extension
    rw [_extension_eq]
  rw [hunfold, contains_msword_iff, splitDot_getLastD]
  by_cases hdot : '.' ∈ k.data
  · unfold msword_ext_spec suffixAfterLastDot
    rw [if_pos hdot, if_pos hdot]
    simp
  · have hall : ∀ a ∈ k.data.reverse, (a != '.') = true := by
      intro a ha
      have hm : a ∈ k.data := List.mem_reverse.mp ha
      have : a ≠ '.' := fun hh => hdot (hh ▸ hm)
      simpa using this
    rw [takeWhile_of_all k.data.reverse hall, List.reverse_reverse, string_mk_data]
    unfold msword_ext_spec
    rw [if_neg hdot]

/-- The separator-prefixed tail of a Python-style join. -/
def tailJoin (sep : String) : List String → String
  | [] => ""
  | t :: ts => sep ++ t ++ tailJoin sep ts

theorem str_join_cons (sep : String) (s : String) (rest : List String) :
    str_join sep (s :: rest) = s ++ tailJoin sep rest := by
  induction rest generalizing s with
  | nil => simp [str_join, tailJoin]
  | cons t ts ih =>
    show s ++ sep ++ str_join sep (t :: ts) = s ++ tailJoin sep (t :: ts)
    rw [ih t]
    show s ++ sep ++ (t ++ tailJoin sep ts) = s ++ (sep ++ t ++ tailJoin sep ts)
    simp [String.append_assoc]

/-- The claim's reading of `sep.join([p1, ..., pn])`: start from the first
element and fold the remaining ones on the left, inserting the separator
before each. -/
def joinSpec (sep : String) (l : List String) : String :=
  match l with
  | [] => ""
  | s :: rest => rest.foldl (fun acc t => acc ++ sep ++ t) s

theorem foldl_tailJoin (sep : String) :
    ∀ (rest : List String) (acc : String),
      rest.foldl (fun a t => a ++ sep ++ t) acc = acc ++ tailJoin sep rest := by
  intro rest
  induction rest with
  | nil => intro acc; simp [tailJoin]
  | cons t ts ih =>
    intro acc
    show ts.foldl (fun a t => a ++ sep ++ t) (acc ++ sep ++ t)
        = acc ++ tailJoin sep (t :: ts)
    rw [ih (acc ++ sep ++ t)]
    show acc ++ sep ++ t ++ tailJoin sep ts = acc ++ (sep ++ t ++ tailJoin sep ts)
    simp [String.append_assoc]

theorem str_join_eq_joinSpec (sep : String) (l : List String) :
    str_join sep l = joinSpec sep l := by
  cases l with
  | nil => rfl
  | cons s rest =>
    rw [str_join_cons]
    show s ++ tailJoin sep rest = rest.foldl (fun acc t => acc ++ sep ++ t) s
    rw [foldl_tailJoin sep rest s]

/-- A concrete two-paragraph document used as witness data. -/
def demoDoc : Document :=
  Document.mk [Paragraph.mk "hi", Paragraph.mk "world"]

/-- A concrete stand-in for the external docx parser: bytes `[1]` parse to
`demoDoc`, everything else fails with a decode error. -/
def demoParse : Bytes → Except StoreErr Document :=
  fun b => if b = [1] then Except.ok demoDoc else Except.error (StoreErr.decodeError "not a docx")

/-- A concrete root: one well-formed docx, one non-docx file, and a file whose
dotless name is literally `doc`. -/
def demoRoot : List (String × Bytes) :=
  [("a.docx", [1]), ("notes.txt", [2]), ("doc", [1])]

/-- The base mapping over `demoRoot`. -/
def demoStore : KVStore Bytes := baseStore demoRoot

/-- C2: the key-transform utilities do NOT satisfy the claim: the source's
`_remove_docx_extension` returns `k[:5]` (the first five characters), so
stripping the append's output returns the first five characters of the
identifier instead of the identifier, and stripping a key ending in `.docx`
keeps its first five characters instead of dropping its last five.  This
theorem evaluates the code at the failing inputs. -/
theorem C2_remove_docx_extension_bug :
    _remove_docx_extension (_add_docx_extension "example") = "examp"
    ∧ _remove_docx_extension "simple.docx" = "simpl"
    ∧ _remove_docx_extension (_add_docx_extension "example") ≠ "example" := by
  refine ⟨?_, ?_, ?_⟩ <;> decide

/-- C3: `get_text_from_docx doc sep` is the separator-join of the `.text` of
every paragraph in document order; the default separator constant is the
single newline character; a document with zero paragraphs yields the empty
string. -/
theorem C3_get_text_join :
    ∀ (doc : Document) (sep : String),
      get_text_from_docx doc sep = joinSpec sep (doc.paragraphs.map Paragraph.text)
      ∧ get_text_from_docx (Document.mk []) sep = ""
      ∧ DFLT_PARAGRAPH_SEP = "\n" := by
  intro doc sep
  refine ⟨?_, rfl, rfl⟩
  unfold get_text_from_docx paragraphs_text
  exact str_join_eq_joinSpec sep (doc.paragraphs.map Paragraph.text)

/-- C9: for an identifier containing no dot, `has_msword_extension` returns
true iff the whole identifier is `doc` or `docx`; consequently a base-mapping
key named exactly `doc` or `docx` is visible through the extension-filtered
mapping. -/
theorem C9_dotless_keys (k : String) (hnd : '.' ∉ k.data) :
    (has_msword_extension k = true ↔ (k = "doc" ∨ k = "docx"))
    ∧ (∀ (m : KVStore Bytes), k ∈ m.keys → (k = "doc" ∨ k = "docx") →
        k ∈ (only_files_with_msword_extension m).keys) := by
  have hiff : has_msword_extension k = true ↔ (k = "doc" ∨ k = "docx") := by
    rw [has_msword_extension_iff_spec]
    unfold msword_ext_spec
    rw [if_neg hnd]
  refine ⟨hiff, ?_⟩
  intro m hk hdoc
  unfold only_files_with_msword_extension filt_iter
  exact List.mem_filter.mpr ⟨hk, hiff.mpr hdoc⟩

/-- C9 witness: the dotless key `doc` of the demo store passes the extension
test and is visible through the filtered mapping. -/
theorem C9_dotless_keys_witness :
    has_msword_extension "doc" = true
    ∧ "doc" ∈ (only_files_with_msword_extension demoStore).keys := by
  have h := C9_dotless_keys "doc" (by decide)
  exact ⟨h.1.mpr (Or.inl rfl), h.2 demoStore (by decide) (Or.inl rfl)⟩

/-- C10: iteration over `extension_less_keys store` yields exactly the
non-empty keys of the store, each key unchanged: the installed filter is the
truthiness of the key's first five characters, which is exactly non-emptiness
of the key, so the view is neither restricted to `.docx` files nor are the
yielded keys stripped of extensions. -/
theorem C10_extension_less_keys_iff :
    ∀ (m : KVStore Bytes) (k : String),
      k ∈ (extension_less_keys m).keys ↔ (k ∈ m.keys ∧ k ≠ "") := by
  intro m k
  unfold extension_less_keys filt_iter
  rw [List.mem_filter]
  have hb : (!(_remove_docx_extension k).isEmpty) = true ↔ k ≠ "" := by
    rw [Bool.not_eq_true']
    constructor
    · intro h hk
      rw [hk] at h
      exact absurd h (by decide)
    · intro hk
      cases hie : (_remove_docx_extension k).isEmpty with
      | false => rfl
      | true =>
        have h1 : _remove_docx_extension k = "" := (String.isEmpty_iff _).mp hie
        have h2 : k.data.take _dflt_extension_len = [] := congrArg String.data h1
        rcases List.take_eq_nil_iff.mp h2 with h3 | h3
        · exact absurd h3 (by decide)
        · exact absurd (String.ext h3) hk
  rw [hb]

/-- C1 counterexample: the claim as stated is false on the code: the dotless
key `doc` — which has no substring strictly after a final dot — nevertheless
appears in the iteration of the filtered demo store, because the source's
`_extension` returns the whole key when the key has no dot. -/
theorem C1_counterexample :
    ¬ (∀ (m : KVStore Bytes) (k : String), k ∈ m.keys →
        (k ∈ (only_files_with_msword_extension m).keys ↔
          (suffixAfterLastDot k = some "doc" ∨ suffixAfterLastDot k = some "docx"))) := by
  intro h
  have hmem : "doc" ∈ demoStore.keys := by decide
  have h2 := (h demoStore "doc" hmem).mp (by decide)
  have h3 : suffixAfterLastDot "doc" = none := by decide
  rw [h3] at h2
  rcases h2 with h2 | h2 <;> exact Option.noConfusion h2

/-- C1 (amended): for every base mapping and key k in it, k appears in the
iteration (and membership test) of the extension-filtered mapping if and only
if: when k contains a dot, the substring strictly after the final dot is
exactly `doc` or `docx`; when k contains no dot, k itself is exactly `doc` or
`docx`. -/
theorem C1_filter_visibility (m : KVStore Bytes) (k : String) (hk : k ∈ m.keys) :
    (k ∈ (only_files_with_msword_extension m).keys ↔ msword_ext_spec k)
    ∧ (m.contains k = true →
        ((only_files_with_msword_extension m).contains k = true ↔ msword_ext_spec k)) := by
  constructor
  · unfold only_files_with_msword_extension filt_iter
    rw [List.mem_filter]
    constructor
    · intro hh
      exact (has_msword_extension_iff_spec k).mp hh.2
    · intro hs
      exact ⟨hk, (has_msword_extension_iff_spec k).mpr hs⟩
  · intro hc
    rw [show (only_files_with_msword_extension m).contains k
        = (m.contains k && has_msword_extension k) from rfl, hc, Bool.true_and]
    exact has_msword_extension_iff_spec k

/-- C1 witness: the key `a.docx` of the demo store satisfies the amended
visibility condition and is indeed iterated by the filtered store. -/
theorem C1_filter_visibility_witness :
    "a.docx" ∈ (only_files_with_msword_extension demoStore).keys
    ∧ msword_ext_spec "a.docx" := by
  have h := C1_filter_visibility demoStore "a.docx" (by decide)
  have hs : msword_ext_spec "a.docx" := by decide
  exact ⟨h.1.mpr hs, hs⟩

/-- C4: looking a present key up through `with_bytes_to_text_decoding` applies
exactly the bytes-to-document decoder followed by the document-to-text
decoder; base-lookup failures and decoder failures propagate unchanged with no
additional failure modes; the wrapped mapping's key list and membership test
are those of the base mapping. -/
theorem C4_text_decoding_lookup (parse : Bytes → Except StoreErr Document)
    (m : KVStore Bytes) :
    (with_bytes_to_text_decoding parse m).keys = m.keys
    ∧ (∀ k, (with_bytes_to_text_decoding parse m).contains k = m.contains k)
    ∧ (∀ k v, m.get k = Except.ok v →
        (with_bytes_to_text_decoding parse m).get k
          = (parse v).map (fun d => get_text_from_docx d DFLT_PARAGRAPH_SEP))
    ∧ (∀ k e, m.get k = Except.error e →
        (with_bytes_to_text_decoding parse m).get k = Except.error e)
    ∧ (∀ k v e, m.get k = Except.ok v → parse v = Except.error e →
        (with_bytes_to_text_decoding parse m).get k = Except.error e) := by
  refine ⟨rfl, fun k => rfl, ?_, ?_, ?_⟩
  · intro k v hv
    show (m.get k).bind (Pipe parse (fun d => get_text_from_docx d DFLT_PARAGRAPH_SEP))
        = (parse v).map (fun d => get_text_from_docx d DFLT_PARAGRAPH_SEP)
    rw [hv]
    rfl
  · intro k e he
    show (m.get k).bind (Pipe parse (fun d => get_text_from_docx d DFLT_PARAGRAPH_SEP))
        = Except.error e
    rw [he]
    rfl
  · intro k v e hv hp
    show (m.get k).bind (Pipe parse (fun d => get_text_from_docx d DFLT_PARAGRAPH_SEP))
        = Except.error e
    rw [hv]
    show (parse v).map (fun d => get_text_from_docx d DFLT_PARAGRAPH_SEP) = Except.error e
    rw [hp]
    rfl

/-- C4 witness: on the demo store, a present good key decodes to the joined
paragraph text, a present bad key surfaces the decoder's error, and an absent
key surfaces the base mapping's key-not-found error. -/
theorem C4_text_decoding_lookup_witness :
    (with_bytes_to_text_decoding demoParse demoStore).get "a.docx"
      = Except.ok "hi\nworld"
    ∧ (with_bytes_to_text_decoding demoParse demoStore).get "notes.txt"
      = Except.error (StoreErr.decodeError "not a docx")
    ∧ (with_bytes_to_text_decoding demoParse demoStore).get "absent"
      = Except.error (StoreErr.keyNotFound "absent") := by
  have h := C4_text_decoding_lookup demoParse demoStore
  refine ⟨?_, ?_, ?_⟩
  · rw [h.2.2.1 "a.docx" [1] (by rfl)]
    rfl
  · exact h.2.2.2.2 "notes.txt" [2] (StoreErr.decodeError "not a docx") (by rfl) (by rfl)
  · exact h.2.2.2.1 "absent" (StoreErr.keyNotFound "absent") (by rfl)

/-- C5: LocalDocxTextStore over a root is extensionally equal (same iterated
keys, same membership answers, same lookup results and errors) to the
extension filter composed with the bytes-to-text decoding of Files over that
root, and LocalDocxStore likewise equals the filter composed with the
bytes-to-document decoding of Files. -/
theorem C5_store_refinement (parse : Bytes → Except StoreErr Document)
    (root : List (String × Bytes)) :
    ((LocalDocxTextStore parse root).keys
        = (only_files_with_msword_extension
            (with_bytes_to_text_decoding parse (Files root))).keys
      ∧ (∀ k, (LocalDocxTextStore parse root).contains k
          = (only_files_with_msword_extension
              (with_bytes_to_text_decoding parse (Files root))).contains k)
      ∧ (∀ k, (LocalDocxTextStore parse root).get k
          = (only_files_with_msword_extension
              (with_bytes_to_text_decoding parse (Files root))).get k))
    ∧ ((LocalDocxStore parse root).keys
        = (only_files_with_msword_extension
            (with_bytes_to_doc_decoding parse (Files root))).keys
      ∧ (∀ k, (LocalDocxStore parse root).contains k
          = (only_files_with_msword_extension
              (with_bytes_to_doc_decoding parse (Files root))).contains k)
      ∧ (∀ k, (LocalDocxStore parse root).get k
          = (only_files_with_msword_extension
              (with_bytes_to_doc_decoding parse (Files root))).get k)) := by
  refine ⟨⟨rfl, fun k => rfl, ?_⟩, rfl, fun k => rfl, fun k => rfl⟩
  intro k
  show (((Files root).get k).bind parse).bind
        (fun d => Except.ok (get_text_from_docx d DFLT_PARAGRAPH_SEP))
      = ((Files root).get k).bind
        (Pipe parse (fun d => get_text_from_docx d DFLT_PARAGRAPH_SEP))
  cases hg : (Files root).get k with
  | error e => rfl
  | ok v => cases parse v <;> rfl

/-- C6: iterating or membership-testing a decoding-wrapped mapping never
invokes the value decoder: the key list and membership answers equal the base
mapping's for every decoder — including one failing on every value — and are
identical across decoders; the decoder enters only the keyed `get` path, so a
decode error can arise only from a keyed value access. -/
theorem C6_lazy_enumeration (m : KVStore Bytes)
    (dec dec' : Bytes → Except StoreErr String) :
    ((wrap_kvs dec m).keys = m.keys)
    ∧ (∀ k, (wrap_kvs dec m).contains k = m.contains k)
    ∧ ((wrap_kvs dec m).keys = (wrap_kvs dec' m).keys)
    ∧ (∀ k, (wrap_kvs dec m).contains k = (wrap_kvs dec' m).contains k)
    ∧ (∀ k, (wrap_kvs dec m).get k = (m.get k).bind dec) :=
  ⟨rfl, fun _ => rfl, rfl, fun _ => rfl, fun _ => rfl⟩

/-- C7: a direct keyed lookup of a present but non-conforming key is not
intercepted by the extension filter: it reaches the underlying lookup
unchanged, and when composed with the text decoder it returns the decoded
value or the decoder's error rather than a filtering-specific or absent-key
error. -/
theorem C7_filter_lookup_passthrough (m : KVStore Bytes)
    (parse : Bytes → Except StoreErr Document) (k : String)
    (_hext : has_msword_extension k = false) (_hmem : m.contains k = true) :
    ((only_files_with_msword_extension m).get k = m.get k)
    ∧ ((only_files_with_msword_extension (with_bytes_to_text_decoding parse m)).get k
        = (m.get k).bind (Pipe parse (fun d => get_text_from_docx d DFLT_PARAGRAPH_SEP))) :=
  ⟨rfl, rfl⟩

/-- C7 witness: the present non-msword key `notes.txt` of the demo store,
looked up through the filtered text-decoding store, surfaces the decoder's
error — not a key-not-found or filter error. -/
theorem C7_filter_lookup_passthrough_witness :
    (only_files_with_msword_extension
        (with_bytes_to_text_decoding demoParse demoStore)).get "notes.txt"
      = Except.error (StoreErr.decodeError "not a docx")
    ∧ has_msword_extension "notes.txt" = false
    ∧ demoStore.contains "notes.txt" = true := by
  have h := C7_filter_lookup_passthrough demoStore demoParse "notes.txt"
    (by decide) (by decide)
  refine ⟨?_, by decide, by decide⟩
  rw [h.2]
  rfl

/-- Keyed access embedded as a state transformer: the source's lookup path
(`wrap_kvs.__getitem__` decoding the base lookup's result) performs no
assignment to the underlying store, so its state-passing embedding returns
the store unchanged alongside the lookup result. -/
def readKey {α : Type} (m : KVStore α) (k : String) :
    Except StoreErr α × KVStore α :=
  (m.get k, m)

/-- C8: a keyed lookup through the text-decoding wrapper leaves the store
unchanged (the state component of the access is the identity), and a second
read of the same key against the state left by the first read returns an
identical result. -/
theorem C8_read_purity (parse : Bytes → Except StoreErr Document)
    (m : KVStore Bytes) (k : String) :
    ((readKey (with_bytes_to_text_decoding parse m) k).2
      = with_bytes_to_text_decoding parse m)
    ∧ ((readKey (with_bytes_to_text_decoding parse m) k).1
      = (readKey ((readKey (with_bytes_to_text_decoding parse m) k).2) k).1) :=
  ⟨rfl, rfl⟩
